import Mathlib

/-!
Shallow embedding of `spendersentry.py` (SpenderSentry, an ERC-20 approval
auditor) together with proofs about the properties stated in its design
specification.

Python integers are modelled by `Nat`/`Int` (values decoded from uint256 words
are nonnegative, hence `Nat`).  Python float division (`value / 10 ** decimals`
in `human_amount`) is modelled by correctly rounded IEEE-754 binary64 division
(`roundB64`), which is exactly what CPython's `int.__truediv__` computes; the
resulting double is represented exactly as a pair `(u, e)` standing for
`u * 2 ^ e`.  Fallible RPC calls are modelled as `Except` values passed in as
parameters.  Python's insertion-ordered `dict` is modelled as an association
list with insert-or-overwrite semantics, and `list.sort` (a stable sort) by
`List.insertionSort`, which is stable for the reflexive comparison used here.
-/

namespace SpenderSentry

/-- The character set of decimal digits; used to reason about rendered
numbers. -/
def digitChars : List Char := ['0', '1', '2', '3', '4', '5', '6', '7', '8', '9']

/-- Little-endian decimal digits of `n`, with explicit fuel (structural
recursion so that the kernel can evaluate it); `toDigitsRev n n` is always
fully computed since `n` bounds the number of digits of `n`. -/
def toDigitsRev : Nat → Nat → List Nat
  | 0, _ => []
  | fuel + 1, n => if n = 0 then [] else n % 10 :: toDigitsRev fuel (n / 10)

/-- Value of a little-endian digit list; inverse of `toDigitsRev`. -/
def fromDigitsRev : List Nat → Nat
  | [] => 0
  | d :: ds => d + 10 * fromDigitsRev ds

/-- Decimal rendering of a natural number; models Python `str(value)` for the
nonnegative integers appearing in the program. -/
def natRepr (n : Nat) : String :=
  if n = 0 then "0" else String.mk ((toDigitsRev n n).reverse.map Nat.digitChar)

/-- Python `s.rstrip(c)` for a single-character strip set: removes all
trailing occurrences of `c`. -/
def rstrip (s : String) (c : Char) : String :=
  String.mk ((s.data.reverse.dropWhile (· == c)).reverse)

/-- Round the nonnegative rational `N / D` to the nearest integer, ties to
even (the rounding used both by IEEE-754 binary64 division and by CPython's
fixed-point float formatting). -/
def roundHEND (N D : Nat) : Nat :=
  let u := N / D
  let r := N % D
  if 2 * r < D then u else if D < 2 * r then u + 1 else if u % 2 = 0 then u else u + 1

/-- Floor of the base-2 logarithm, with explicit fuel (kernel-evaluable). -/
def log2fuel : Nat → Nat → Nat
  | 0, _ => 0
  | fuel + 1, n => if 2 ≤ n then log2fuel fuel (n / 2) + 1 else 0

/-- Floor of the base-2 logarithm of a positive natural number. -/
def nlog2 (n : Nat) : Nat := log2fuel n n

/-- Decides `2 ^ g ≤ n / d` for an integer exponent `g` by cross
multiplication. -/
def pow2le (g : Int) (n d : Nat) : Bool :=
  if 0 ≤ g then decide (d * 2 ^ g.toNat ≤ n) else decide (d ≤ n * 2 ^ (-g).toNat)

/-- Floor of the base-2 logarithm of the positive rational `n / d`. -/
def qlog2floor (n d : Nat) : Int :=
  let g : Int := (nlog2 n : Int) - (nlog2 d : Int)
  if pow2le (g + 1) n d then g + 1 else if pow2le g n d then g else g - 1

/-- Correctly rounded IEEE-754 binary64 division `n / d` (round to nearest,
ties to even, subnormals included), as computed by CPython for `int / int`.
The result `some (u, e)` represents the double with exact value `u * 2 ^ e`;
`none` models the `OverflowError` CPython raises when the rounded quotient
reaches `2 ^ 1024`. -/
def roundB64 (n d : Nat) : Option (Nat × Int) :=
  if n = 0 then some (0, 0)
  else
    let E := qlog2floor n d
    let e := max (E - 52) (-1074)
    let u := if 0 ≤ e then roundHEND n (d * 2 ^ e.toNat) else roundHEND (n * 2 ^ (-e).toNat) d
    if 2 ^ 2098 ≤ u * 2 ^ (e + 1074).toNat then none else some (u, e)

/-- The 8 decimal digits of `m < 10 ^ 8`, most significant first, left padded
with zeros (the fractional part printed by `f"{x:.8f}"`). -/
def pad8 (m : Nat) : List Char :=
  (List.range 8).map (fun i => Nat.digitChar (m / 10 ^ (7 - i) % 10))

/-- The exact value of the double `u * 2 ^ e`, correctly rounded (ties to
even) to 8 decimal places and scaled by `10 ^ 8`; the integer CPython's
fixed-point formatting of the double is built from. -/
def n8val (u : Nat) (e : Int) : Nat :=
  if 0 ≤ e then u * 2 ^ e.toNat * 10 ^ 8 else roundHEND (u * 10 ^ 8) (2 ^ (-e).toNat)

/-- CPython `f"{x:.8f}"` on the nonnegative double `u * 2 ^ e`: the double's
exact value is correctly rounded (ties to even) to 8 decimal places and
printed with exactly 8 fractional digits. -/
def format8 (u : Nat) (e : Int) : String :=
  natRepr (n8val u e / 10 ^ 8) ++ "." ++ String.mk (pad8 (n8val u e % 10 ^ 8))

/-- Model of `human_amount` (spendersentry.py lines 57-62).  Returns `none`
exactly when the Python code raises `OverflowError` inside the float
division; otherwise the produced string.  The code computes
`value / (10 ** decimals)` as a float, formats it with `f"{scaled:.8f}"` and
then strips trailing `'0'` characters followed by a trailing `'.'`. -/
def human_amount (value : Nat) (decimals : Int) : Option String :=
  if decimals ≤ 0 then some (natRepr value)
  else
    match roundB64 value (10 ^ decimals.toNat) with
    | none => none
    | some (u, e) => some (rstrip (rstrip (format8 u e) '0') '.')

/-- Spec-side reading of the amount formatter in which "divide by
`10^decimals`" is exact rational division (no float rounding): the exact
quotient is rounded to 8 decimal places (ties to even) and stripped the same
way.  Used to compare the specification's words with the code's float
pipeline. -/
def humanAmountExact (value : Nat) (decimals : Int) : String :=
  if decimals ≤ 0 then natRepr value
  else
    let n8 := roundHEND (value * 10 ^ 8) (10 ^ decimals.toNat)
    rstrip (rstrip (natRepr (n8 / 10 ^ 8) ++ "." ++ String.mk (pad8 (n8 % 10 ^ 8))) '0') '.'

/-- The static allowlist of known-legitimate spender contracts
(spendersentry.py lines 31-40).  The source applies
`Web3.to_checksum_address` to literals that are already in checksummed form,
so the entries are the literals themselves. -/
def SAFE_SPENDERS_ETH : List (String × String) :=
  [("0xE592427A0AEce92De3Edee1F18E0157C05861564", "Uniswap V3 SwapRouter"),
   ("0x68b3465833fb72A70ecDF485E0e4C7bD8665Fc45", "Uniswap V3 SwapRouter02"),
   ("0x7a250d5630B4cF539739dF2C5dAcb4c659F2488D", "Uniswap V2 Router"),
   ("0x1111111254EEB25477B68fb85Ed929f73A960582", "1inch Aggregation Router"),
   ("0xDef1C0ded9bec7F1a1670819833240f027b25EfF", "0x Exchange Proxy")]

/-- Heuristic threshold for an "infinite" approval (spendersentry.py line
42). -/
def INFINITE_THRESHOLD : Nat := 2 ^ 255

/-- Python `spender in SAFE_SPENDERS_ETH` (dict key membership). -/
def in_safe_spenders (spender : String) : Bool :=
  SAFE_SPENDERS_ETH.any (fun p => decide (p.1 = spender))

/-- Python `SAFE_SPENDERS_ETH.get(spender, "")`. -/
def safe_spender_tag (spender : String) : String :=
  ((SAFE_SPENDERS_ETH.find? (fun p => decide (p.1 = spender))).map Prod.snd).getD ""

/-- Model of `calc_risk` (spendersentry.py lines 97-108). -/
def calc_risk (allowance_raw balance_raw : Nat) (spender : String) : Nat :=
  let is_infinite := decide (INFINITE_THRESHOLD ≤ allowance_raw)
  let in_allow := in_safe_spenders spender
  if (is_infinite && !in_allow)
      || (decide (0 < balance_raw) && decide (10 * balance_raw < allowance_raw) && !in_allow) then 3
  else if (decide (balance_raw < allowance_raw) && !in_allow) || (is_infinite && in_allow) then 2
  else 1

/-- The risk cascade exactly as worded by the specification (risk 3 on
infinite-and-unlisted or out-of-proportion-and-unlisted, else risk 2 on
above-balance-and-unlisted or infinite-and-listed, else risk 1; first match
wins).  Stated independently of `calc_risk` so the two can be compared. -/
def riskSpec (allowanceRaw balanceRaw : Nat) (spender : String) : Nat :=
  let isInfinite := 2 ^ 255 ≤ allowanceRaw
  let allowlisted := spender ∈ SAFE_SPENDERS_ETH.map Prod.fst
  if (isInfinite ∧ ¬allowlisted) ∨ (0 < balanceRaw ∧ 10 * balanceRaw < allowanceRaw ∧ ¬allowlisted) then 3
  else if (balanceRaw < allowanceRaw ∧ ¬allowlisted) ∨ (isInfinite ∧ allowlisted) then 2
  else 1

/-- Loop body of `chunk_ranges` (spendersentry.py lines 91-95) with explicit
fuel.  The Python generator advances `cur` by `step` while `cur <= end`; for
`step ≥ 1` the number of iterations is at most the size of the range, so
`(end + 1 - start).toNat` fuel always suffices (for `step ≤ 0` the Python
loop does not terminate, a case outside every property stated below). -/
def chunk_ranges_go (step e : Int) : Nat → Int → List (Int × Int)
  | 0, _ => []
  | fuel + 1, cur =>
    if cur ≤ e then (cur, min e (cur + step - 1)) :: chunk_ranges_go step e fuel (cur + step)
    else []

/-- Model of `chunk_ranges` (spendersentry.py lines 91-95). -/
def chunk_ranges (start e step : Int) : List (Int × Int) :=
  chunk_ranges_go step e (e + 1 - start).toNat start

/-- One decoded `Approval` log entry, after the extraction performed in the
scan loop (spendersentry.py lines 134-139): the emitting contract address,
the spender from the second indexed topic, the big-endian-decoded data word,
and the block height (carried by the raw log; not read by the scan loop). -/
structure ApprovalLog where
  token : String
  spender : String
  rawValue : Nat
  blockNumber : Int

/-- The dictionary key used by the scan: `(token, spender)`. -/
def approval_key (lg : ApprovalLog) : String × String := (lg.token, lg.spender)

/-- Python `dict` assignment `m[k] = v` on an insertion-ordered association
list: overwrite in place if the key is present, append otherwise. -/
def dictInsert (m : List ((String × String) × Nat)) (k : String × String) (v : Nat) :
    List ((String × String) × Nat) :=
  if m.any (fun p => decide (p.1 = k)) then m.map (fun p => if p.1 = k then (k, v) else p)
  else m ++ [(k, v)]

/-- Python `m.get(k)` on the association list. -/
def dictLookup (k : String × String) : List ((String × String) × Nat) → Option Nat
  | [] => none
  | p :: rest => if p.1 = k then some p.2 else dictLookup k rest

/-- The keys of the association list, in insertion order. -/
def dictKeys (m : List ((String × String) × Nat)) : List (String × String) :=
  m.map Prod.fst

/-- Processing one log inside the scan loop: `pairs[(token, spender)] = raw`
(spendersentry.py line 139). -/
def scan_step (m : List ((String × String) × Nat)) (lg : ApprovalLog) :
    List ((String × String) × Nat) :=
  dictInsert m (approval_key lg) lg.rawValue

/-- The aggregation performed by the scan over a sequence of logs, in
processing order, starting from the empty dictionary. -/
def scanFold (logs : List ApprovalLog) : List ((String × String) × Nat) :=
  logs.foldl scan_step []

/-- The `latest` bound of the scan: `w3.eth.block_number` when `to_block` is
`None`, else `to_block` (spendersentry.py line 120). -/
def scan_latest (blockNumber : Int) (to_block : Option Int) : Int :=
  to_block.getD blockNumber

/-- The `start` bound of the scan: default `latest - 200000` when
`from_block` is `None`, then clamped by `start = max(start, 0)`
(spendersentry.py lines 121-122). -/
def scan_start (latest : Int) (from_block : Option Int) : Int :=
  max (from_block.getD (latest - 200000)) 0

/-- Model of `scan_approvals` (spendersentry.py lines 110-140).  The RPC call
`w3.eth.get_logs` is abstracted as `getLogs`, which receives the chunk bounds
and either returns the decoded logs of that chunk or fails; a failure
propagates out of the whole scan (the Python code has no handler around
`get_logs`). -/
def scan_approvals {ε : Type} (getLogs : Int → Int → Except ε (List ApprovalLog))
    (blockNumber : Int) (from_block to_block : Option Int) (step : Int) :
    Except ε (List ((String × String) × Nat)) :=
  (chunk_ranges (scan_start (scan_latest blockNumber to_block) from_block)
      (scan_latest blockNumber to_block) step).foldlM
    (fun pairs c => do
      let logs ← getLogs c.1 c.2
      pure (logs.foldl scan_step pairs))
    []

/-- Model of `get_token_meta` (spendersentry.py lines 64-75).  The two
read-only contract calls are abstracted as `Except` values; each `try`
block keeps the default (`"UNKNOWN"` / `18`) on failure. -/
def get_token_meta {εs εd : Type} (symbolCall : Except εs String)
    (decimalsCall : Except εd Int) : String × Int :=
  let symbol := match symbolCall with | .ok s => s | .error _ => "UNKNOWN"
  let decimals := match decimalsCall with | .ok d => d | .error _ => 18
  (symbol, decimals)

/-- Model of `get_allowance_balance` (spendersentry.py lines 77-89): each of
the two live calls independently falls back to `0` on failure. -/
def get_allowance_balance {εa εb : Type} (allowanceCall : Except εa Nat)
    (balanceCall : Except εb Nat) : Nat × Nat :=
  let allow := match allowanceCall with | .ok a => a | .error _ => 0
  let bal := match balanceCall with | .ok b => b | .error _ => 0
  (allow, bal)

/-- One report line (spendersentry.py lines 44-55). -/
structure AllowanceRow where
  token : String
  symbol : String
  decimals : Int
  spender : String
  spender_tag : String
  allowance : String
  allowance_raw : Nat
  balance : String
  balance_raw : Nat
  risk : Nat
  deriving DecidableEq

/-- The comparison realised by Python `rows.sort(key=lambda r: (-r.risk,
-r.allowance_raw))`: `a` may come before `b` iff the key tuple of `a` is at
most that of `b`, i.e. risk descending, then raw allowance descending. -/
def rowLe (a b : AllowanceRow) : Prop :=
  b.risk < a.risk ∨ (b.risk = a.risk ∧ b.allowance_raw ≤ a.allowance_raw)

instance : DecidableRel rowLe := fun a b => by unfold rowLe; infer_instance

instance : IsTotal AllowanceRow rowLe := ⟨fun a b => by unfold rowLe; omega⟩

instance : IsTrans AllowanceRow rowLe := ⟨fun a b c h1 h2 => by unfold rowLe at *; omega⟩

/-- The sort key of a row (descending on both components under `rowLe`). -/
def row_key (r : AllowanceRow) : Nat × Nat := (r.risk, r.allowance_raw)

/-- Python `rows.sort(...)` is a stable sort; it is modelled by insertion
sort, which is stable for the reflexive relation `rowLe` (any two stable
sorts for the same total preorder agree). -/
def sortRows (rows : List AllowanceRow) : List AllowanceRow :=
  rows.insertionSort rowLe

/-- Construction of one `AllowanceRow` in the loop of `build_report`
(spendersentry.py lines 146-161).  `tokenMeta` abstracts
`get_token_meta(w3, token)` (the per-token memoization cache does not change
its pure value) and `liveValues` abstracts
`get_allowance_balance(w3, token, owner, spender)`.  The result is `none`
exactly when one of the two `human_amount` calls raises. -/
def mkRow (tokenMeta : String → String × Int) (liveValues : String × String → Nat × Nat)
    (pair : (String × String) × Nat) : Option AllowanceRow :=
  let token := pair.1.1
  let spender := pair.1.2
  let meta := tokenMeta token
  let live := liveValues (token, spender)
  match human_amount live.1 meta.2, human_amount live.2 meta.2 with
  | some allow_h, some bal_h =>
      some ⟨token, meta.1, meta.2, spender, safe_spender_tag spender,
            allow_h, live.1, bal_h, live.2, calc_risk live.1 live.2 spender⟩
  | _, _ => none

/-- The unsorted row list built by `build_report`, in dictionary (insertion)
order of the scanned pairs. -/
def mkRows (tokenMeta : String → String × Int) (liveValues : String × String → Nat × Nat)
    (pairs : List ((String × String) × Nat)) : Option (List AllowanceRow) :=
  pairs.mapM (mkRow tokenMeta liveValues)

/-- Model of `build_report` (spendersentry.py lines 142-164): build one row
per pair, then sort by `(-risk, -allowance_raw)` with Python's stable sort. -/
def build_report (tokenMeta : String → String × Int)
    (liveValues : String × String → Nat × Nat)
    (pairs : List ((String × String) × Nat)) : Option (List AllowanceRow) :=
  (mkRows tokenMeta liveValues pairs).map sortRows

/-- The cell list built for one row inside `print_table` (spendersentry.py
lines 168-180), in column order `!`, SYM, TOKEN, SPENDER, BAL, ALLOW, RISK. -/
def print_table_row (r : AllowanceRow) (highlight_infinite : Bool) : List String :=
  let star := if 3 ≤ r.risk then "★" else if r.risk = 2 then "•" else ""
  let inf := if INFINITE_THRESHOLD ≤ r.allowance_raw ∧ highlight_infinite = true then " ∞" else ""
  let tag := if r.spender_tag ≠ "" then " (" ++ r.spender_tag ++ ")" else ""
  [star, r.symbol, r.token, r.spender ++ tag, r.balance, r.allowance ++ inf, natRepr r.risk]

/-- The `table` list passed to `tabulate` by `print_table` (spendersentry.py
lines 166-181). -/
def print_table_rows (rows : List AllowanceRow) (highlight_infinite : Bool) :
    List (List String) :=
  rows.map (fun r => print_table_row r highlight_infinite)

/-! ## Lemmas and claim theorems -/

lemma in_safe_iff (s : String) :
    in_safe_spenders s = true ↔ s ∈ SAFE_SPENDERS_ETH.map Prod.fst := by
  simp [in_safe_spenders, List.any_eq_true, List.mem_map]

/-- C1: the risk scorer is a pure function of
`(allowanceRaw, balanceRaw, spender)` computing exactly the specified
first-match-wins cascade (risk 3 on infinite-and-unlisted or
more-than-tenfold-balance-and-unlisted; else risk 2 on
above-balance-and-unlisted or infinite-and-listed; else risk 1), and it
yields the spec's five concrete test vectors. -/
theorem calc_risk_spec :
    (∀ (a b : Nat) (s : String), calc_risk a b s = riskSpec a b s) ∧
    calc_risk (2 ^ 256 - 1) 100 "0xDEAD" = 3 ∧
    calc_risk (2 ^ 256 - 1) 100 "0xE592427A0AEce92De3Edee1F18E0157C05861564" = 2 ∧
    calc_risk 50 100 "0xDEAD" = 1 ∧
    calc_risk 150 100 "0xDEAD" = 2 ∧
    calc_risk 1100 100 "0xDEAD" = 3 := by
  refine ⟨?_, by decide, by decide, by decide, by decide, by decide⟩
  intro a b s
  unfold calc_risk riskSpec INFINITE_THRESHOLD
  by_cases hmem : s ∈ SAFE_SPENDERS_ETH.map Prod.fst
  · have hb : in_safe_spenders s = true := (in_safe_iff s).mpr hmem
    simp [hb, hmem]
  · have hb : in_safe_spenders s = false := by
      rcases Bool.eq_false_or_eq_true (in_safe_spenders s) with h | h
      · exact absurd ((in_safe_iff s).mp h) hmem
      · exact h
    simp only [hb, hmem]
    simp

/-- C5: the metadata and allowance fetchers never raise past their boundary;
each failed call independently yields its default (`"UNKNOWN"`, `18`, `0`,
`0`) while the fetch still returns normally (the model functions are total). -/
theorem fetch_defaults :
    ∀ (εs εd εa εb : Type) (sc : Except εs String) (dc : Except εd Int)
      (ac : Except εa Nat) (bc : Except εb Nat),
      (∀ es, sc = .error es → (get_token_meta sc dc).1 = "UNKNOWN") ∧
      (∀ ed, dc = .error ed → (get_token_meta sc dc).2 = 18) ∧
      (∀ ea, ac = .error ea → (get_allowance_balance ac bc).1 = 0) ∧
      (∀ eb, bc = .error eb → (get_allowance_balance ac bc).2 = 0) := by
  intro εs εd εa εb sc dc ac bc
  refine ⟨?_, ?_, ?_, ?_⟩ <;> rintro e rfl <;> rfl

/-- Witness for C5 at concrete failing calls. -/
theorem fetch_defaults_witness :
    (get_token_meta (Except.error () : Except Unit String)
        (Except.error () : Except Unit Int)).1 = "UNKNOWN" ∧
    (get_token_meta (Except.error () : Except Unit String)
        (Except.error () : Except Unit Int)).2 = 18 ∧
    (get_allowance_balance (Except.error () : Except Unit Nat)
        (Except.error () : Except Unit Nat)).1 = 0 ∧
    (get_allowance_balance (Except.error () : Except Unit Nat)
        (Except.error () : Except Unit Nat)).2 = 0 := by
  have h := fetch_defaults Unit Unit Unit Unit (.error ()) (.error ()) (.error ()) (.error ())
  exact ⟨h.1 () rfl, h.2.1 () rfl, h.2.2.1 () rfl, h.2.2.2 () rfl⟩

/-- C8 counterexample: for a row at the infinite threshold the SPENDER column
cell (index 3) is exactly the spender address with no "∞" marker — the code
appends the marker to the ALLOW column instead. -/
theorem print_table_infinite_cex :
    INFINITE_THRESHOLD ≤
        (AllowanceRow.mk "0xT" "TK" 18 "0xS" "" "1" (2 ^ 255) "0" 0 3).allowance_raw ∧
    (print_table_row (AllowanceRow.mk "0xT" "TK" 18 "0xS" "" "1" (2 ^ 255) "0" 0 3) true).get? 3 =
        some "0xS" ∧
    '∞' ∉ "0xS".data := by decide

/-- C8 (amended): every row whose raw allowance is at or above
`INFINITE_THRESHOLD` carries the " ∞" marker as a suffix of its ALLOW column
entry (index 5), not of its SPENDER entry. -/
theorem print_table_infinite_marker :
    ∀ r : AllowanceRow, INFINITE_THRESHOLD ≤ r.allowance_raw →
      (print_table_row r true).get? 5 = some (r.allowance ++ " ∞") := by
  intro r h
  unfold print_table_row
  simp [h]

/-- Witness for the amended C8 at a concrete row. -/
theorem print_table_infinite_marker_witness :
    (print_table_row (AllowanceRow.mk "0xT" "TK" 18 "0xS" "" "1" (2 ^ 255) "0" 0 3) true).get? 5 =
      some ("1" ++ " ∞") :=
  print_table_infinite_marker (AllowanceRow.mk "0xT" "TK" 18 "0xS" "" "1" (2 ^ 255) "0" 0 3)
    (by decide)


lemma go_nil {step e : Int} (fuel : Nat) (cur : Int) (h : e < cur) :
    chunk_ranges_go step e fuel cur = [] := by
  cases fuel with
  | zero => rfl
  | succ f => simp [chunk_ranges_go]; omega

lemma go_fuel_irrel {step e : Int} (hs : 1 ≤ step) :
    ∀ (f1 f2 : Nat) (cur : Int), (e + 1 - cur).toNat ≤ f1 → (e + 1 - cur).toNat ≤ f2 →
      chunk_ranges_go step e f1 cur = chunk_ranges_go step e f2 cur := by
  intro f1
  induction f1 with
  | zero =>
    intro f2 cur h1 _
    have : e < cur := by omega
    rw [go_nil 0 cur this, go_nil f2 cur this]
  | succ f ih =>
    intro f2 cur h1 h2
    by_cases hcur : cur ≤ e
    · cases f2 with
      | zero => omega
      | succ g =>
        simp only [chunk_ranges_go, if_pos hcur]
        congr 1
        exact ih g (cur + step) (by omega) (by omega)
    · rw [go_nil _ cur (by omega), go_nil _ cur (by omega)]

lemma chunk_ranges_nil {start e step : Int} (h : e < start) :
    chunk_ranges start e step = [] := by
  unfold chunk_ranges
  have h0 : (e + 1 - start).toNat = 0 := by omega
  rw [h0]
  rfl

lemma chunk_ranges_cons {start e step : Int} (hs : 1 ≤ step) (h : start ≤ e) :
    chunk_ranges start e step =
      (start, min e (start + step - 1)) :: chunk_ranges (start + step) e step := by
  unfold chunk_ranges
  have h1 : (e + 1 - start).toNat = (e - start).toNat + 1 := by omega
  rw [h1]
  simp only [chunk_ranges_go, if_pos h]
  congr 1
  exact go_fuel_irrel hs _ _ (start + step) (by omega) (by omega)


lemma go_head {step e : Int} (fuel : Nat) (cur : Int) (hf : (e + 1 - cur).toNat ≤ fuel)
    (h : cur ≤ e) :
    (chunk_ranges_go step e fuel cur).head? = some (cur, min e (cur + step - 1)) := by
  cases fuel with
  | zero => omega
  | succ f => simp [chunk_ranges_go, if_pos h]

lemma go_mem {step e : Int} (hs : 1 ≤ step) :
    ∀ (fuel : Nat) (cur : Int), (e + 1 - cur).toNat ≤ fuel →
      ∀ p ∈ chunk_ranges_go step e fuel cur,
        cur ≤ p.1 ∧ p.1 ≤ p.2 ∧ p.2 ≤ e ∧ p.2 + 1 - p.1 ≤ step := by
  intro fuel
  induction fuel with
  | zero => intro cur _ p hp; simp [chunk_ranges_go] at hp
  | succ f ih =>
    intro cur hf p hp
    by_cases hcur : cur ≤ e
    · simp only [chunk_ranges_go, if_pos hcur, List.mem_cons] at hp
      rcases hp with rfl | hp
      · constructor
        · exact le_refl cur
        constructor
        · omega
        constructor
        · omega
        · omega
      · have := ih (cur + step) (by omega) p hp
        omega
    · rw [go_nil (f + 1) cur (by omega)] at hp
      simp at hp

lemma go_chain {step e : Int} (hs : 1 ≤ step) :
    ∀ (fuel : Nat) (cur : Int), (e + 1 - cur).toNat ≤ fuel →
      List.Chain' (fun p q : Int × Int => q.1 = p.2 + 1) (chunk_ranges_go step e fuel cur) := by
  intro fuel
  induction fuel with
  | zero => intro cur _; simp [chunk_ranges_go]
  | succ f ih =>
    intro cur hf
    by_cases hcur : cur ≤ e
    · simp only [chunk_ranges_go, if_pos hcur]
      rw [List.chain'_cons']
      constructor
      · intro q hq
        by_cases hnext : cur + step ≤ e
        · rw [go_head f (cur + step) (by omega) hnext] at hq
          simp at hq
          subst hq
          simp
          omega
        · rw [go_nil f (cur + step) (by omega)] at hq
          simp at hq
      · exact ih (cur + step) (by omega)
    · rw [go_nil _ cur (by omega)]
      simp

lemma go_dropLast {step e : Int} (hs : 1 ≤ step) :
    ∀ (fuel : Nat) (cur : Int), (e + 1 - cur).toNat ≤ fuel →
      ∀ p ∈ (chunk_ranges_go step e fuel cur).dropLast, p.2 + 1 - p.1 = step := by
  intro fuel
  induction fuel with
  | zero => intro cur _ p hp; simp [chunk_ranges_go] at hp
  | succ f ih =>
    intro cur hf p hp
    by_cases hcur : cur ≤ e
    · simp only [chunk_ranges_go, if_pos hcur] at hp
      by_cases hnext : cur + step ≤ e
      · have hne : chunk_ranges_go step e f (cur + step) ≠ [] := by
          intro hnil
          have hh := @go_head step e f (cur + step) (by omega) hnext
          rw [hnil] at hh
          simp at hh
        rcases hx : chunk_ranges_go step e f (cur + step) with _ | ⟨q, rest⟩
        · exact absurd hx hne
        · rw [hx, List.dropLast_cons₂, List.mem_cons] at hp
          rcases hp with rfl | hp
          · simp
            omega
          · rw [← hx] at hp
            exact ih (cur + step) (by omega) p hp
      · rw [go_nil f (cur + step) (by omega)] at hp
        simp at hp
    · rw [go_nil _ cur (by omega)] at hp
      simp at hp

lemma go_cover {step e : Int} (hs : 1 ≤ step) :
    ∀ (fuel : Nat) (cur : Int), (e + 1 - cur).toNat ≤ fuel →
      ∀ x : Int,
        (∃ p ∈ chunk_ranges_go step e fuel cur, p.1 ≤ x ∧ x ≤ p.2) ↔ cur ≤ x ∧ x ≤ e := by
  intro fuel
  induction fuel with
  | zero =>
    intro cur hf x
    simp [chunk_ranges_go]
    omega
  | succ f ih =>
    intro cur hf x
    by_cases hcur : cur ≤ e
    · simp only [chunk_ranges_go, if_pos hcur, List.mem_cons]
      constructor
      · rintro ⟨p, hp | hp, hx1, hx2⟩
        · subst hp
          simp at hx1 hx2
          omega
        · have := (ih (cur + step) (by omega) x).mp ⟨p, hp, hx1, hx2⟩
          omega
      · rintro ⟨hx1, hx2⟩
        by_cases hlo : x ≤ cur + step - 1
        · exact ⟨(cur, min e (cur + step - 1)), Or.inl rfl, by simp; omega⟩
        · obtain ⟨p, hp, hx⟩ := (ih (cur + step) (by omega) x).mpr (by omega)
          exact ⟨p, Or.inr hp, hx⟩
    · rw [go_nil _ cur (by omega)]
      simp
      omega

lemma go_length {step e : Int} (hs : 1 ≤ step) :
    ∀ (fuel : Nat) (cur : Int), (e + 1 - cur).toNat ≤ fuel →
      (chunk_ranges_go step e fuel cur).length =
        ((e + 1 - cur).toNat + step.toNat - 1) / step.toNat := by
  intro fuel
  induction fuel with
  | zero =>
    intro cur hf
    have h0 : (e + 1 - cur).toNat = 0 := by omega
    rw [go_nil 0 cur (by omega), h0]
    have hlt : step.toNat - 1 < step.toNat := by omega
    simp [Nat.div_eq_of_lt hlt]
  | succ f ih =>
    intro cur hf
    by_cases hcur : cur ≤ e
    · simp only [chunk_ranges_go, if_pos hcur, List.length_cons]
      rw [ih (cur + step) (by omega)]
      have hm : 1 ≤ (e + 1 - cur).toNat := by omega
      set s := step.toNat with hs_def
      set m := (e + 1 - cur).toNat with hm_def
      have hs1 : 1 ≤ s := by omega
      have hm' : (e + 1 - (cur + step)).toNat = m - s := by omega
      rw [hm']
      by_cases hc : s ≤ m
      · have e1 : m - s + s - 1 = m - 1 := by omega
        rw [e1]
        have e2 : (m - 1 + s) / s = (m - 1) / s + 1 := Nat.add_div_right _ (by omega)
        have e3 : m + s - 1 = m - 1 + s := by omega
        rw [e3, e2]
      · have e1 : m - s = 0 := by omega
        rw [e1]
        have e2 : (0 + s - 1) / s = 0 := Nat.div_eq_of_lt (by omega)
        rw [e2]
        have e3 : (m + s - 1) / s = 1 := by
          apply Nat.div_eq_of_lt_le
          · omega
          · omega
        rw [e3]
    · rw [go_nil _ cur (by omega)]
      have h0 : (e + 1 - cur).toNat = 0 := by omega
      rw [h0]
      have hlt : step.toNat - 1 < step.toNat := by omega
      simp [Nat.div_eq_of_lt hlt]


/-- C2: for `step ≥ 1` and `start ≤ end` the chunker yields a nonempty,
contiguous, non-overlapping ordered sequence of chunks of size at most
`step` (all but possibly the last of size exactly `step`) covering exactly
`[start, end]`, with `ceil((end - start + 1) / step)` chunks; for
`start > end` it yields the empty sequence. -/
theorem chunk_ranges_spec :
    ∀ start e step : Int,
      (e < start → chunk_ranges start e step = []) ∧
      (1 ≤ step → start ≤ e →
        chunk_ranges start e step ≠ [] ∧
        (chunk_ranges start e step).head? = some (start, min e (start + step - 1)) ∧
        (∀ p ∈ chunk_ranges start e step, p.1 ≤ p.2 ∧ p.2 + 1 - p.1 ≤ step) ∧
        List.Chain' (fun p q : Int × Int => q.1 = p.2 + 1) (chunk_ranges start e step) ∧
        (∀ p ∈ (chunk_ranges start e step).dropLast, p.2 + 1 - p.1 = step) ∧
        (∀ x : Int, (∃ p ∈ chunk_ranges start e step, p.1 ≤ x ∧ x ≤ p.2) ↔
          start ≤ x ∧ x ≤ e) ∧
        (chunk_ranges start e step).length =
          ((e + 1 - start).toNat + step.toNat - 1) / step.toNat) := by
  intro start e step
  constructor
  · exact fun h => chunk_ranges_nil h
  · intro hs h
    have hhead := @go_head step e (e + 1 - start).toNat start (le_refl _) h
    refine ⟨?_, hhead, ?_, ?_, ?_, ?_, ?_⟩
    · intro hnil
      unfold chunk_ranges at hnil
      rw [hnil] at hhead
      simp at hhead
    · exact fun p hp => ⟨((go_mem hs _ start (le_refl _)) p hp).2.1,
        ((go_mem hs _ start (le_refl _)) p hp).2.2.2⟩
    · exact go_chain hs _ start (le_refl _)
    · exact go_dropLast hs _ start (le_refl _)
    · exact go_cover hs _ start (le_refl _)
    · exact go_length hs _ start (le_refl _)

/-- Witness for C2 at concrete ranges. -/
theorem chunk_ranges_spec_witness :
    chunk_ranges 5 2 3 = [] ∧
    (chunk_ranges 0 10 4).length = ((10 + 1 - 0 : Int).toNat + (4 : Int).toNat - 1) / (4 : Int).toNat := by
  constructor
  · exact (chunk_ranges_spec 5 2 3).1 (by decide)
  · exact ((chunk_ranges_spec 0 10 4).2 (by decide) (by decide)).2.2.2.2.2.2

/-- C10 (implicit): the clamp `start = max(start, 0)` applies to explicitly
supplied `from_block` values as well: a negative `from_block` makes the scan
behave exactly as if `from_block = 0` were given, and the first chunk then
starts at block 0. -/
theorem scan_from_block_clamp :
    ∀ (ε : Type) (getLogs : Int → Int → Except ε (List ApprovalLog)) (bn fb : Int)
      (tb : Option Int) (step : Int), fb < 0 →
      scan_approvals getLogs bn (some fb) tb step = scan_approvals getLogs bn (some 0) tb step ∧
      (1 ≤ step → 0 ≤ scan_latest bn tb →
        (chunk_ranges (scan_start (scan_latest bn tb) (some fb)) (scan_latest bn tb) step).head? =
          some (0, min (scan_latest bn tb) (step - 1))) := by
  intro ε getLogs bn fb tb step hfb
  have hstart : scan_start (scan_latest bn tb) (some fb) = scan_start (scan_latest bn tb) (some 0) := by
    simp [scan_start]
    omega
  constructor
  · unfold scan_approvals
    rw [hstart]
  · intro hs hlat
    have h0 : scan_start (scan_latest bn tb) (some fb) = 0 := by
      simp [scan_start]
      omega
    rw [h0]
    have hcons := @chunk_ranges_cons 0 (scan_latest bn tb) step hs hlat
    rw [hcons]
    simp

/-- Witness for C10: a negative `from_block` of -5 behaves as 0. -/
theorem scan_from_block_clamp_witness :
    scan_approvals (fun _ _ => (Except.ok [] : Except Unit (List ApprovalLog))) 100 (some (-5))
        (some 100) 30 =
      scan_approvals (fun _ _ => (Except.ok [] : Except Unit (List ApprovalLog))) 100 (some 0)
        (some 100) 30 ∧
    (chunk_ranges (scan_start (scan_latest 100 (some 100)) (some (-5))) (scan_latest 100 (some 100)) 30).head? =
      some (0, min (scan_latest 100 (some 100)) (30 - 1)) := by
  have h := scan_from_block_clamp Unit (fun _ _ => Except.ok []) 100 (-5) (some 100) 30 (by decide)
  exact ⟨h.1, h.2 (by decide) (by decide)⟩


lemma scan_foldlM_error {ε : Type} (getLogs : Int → Int → Except ε (List ApprovalLog))
    (c : Int × Int) (post : List (Int × Int)) (err : ε) (hc : getLogs c.1 c.2 = .error err) :
    ∀ (pre : List (Int × Int)) (acc : List ((String × String) × Nat)),
      (∀ p ∈ pre, ∃ logs, getLogs p.1 p.2 = .ok logs) →
      List.foldlM
        (fun pairs q => do
          let logs ← getLogs q.1 q.2
          pure (logs.foldl scan_step pairs))
        acc (pre ++ c :: post) = .error err := by
  intro pre
  induction pre with
  | nil =>
    intro acc _
    simp only [List.nil_append, List.foldlM_cons]
    rw [hc]
    rfl
  | cons p rest ih =>
    intro acc hok
    obtain ⟨logs, hlogs⟩ := hok p (List.mem_cons_self p rest)
    simp only [List.cons_append, List.foldlM_cons]
    rw [hlogs]
    exact ih (logs.foldl scan_step acc) (fun q hq => hok q (List.mem_cons_of_mem p hq))

/-- C6: a failing chunked `eth_getLogs` call is fatal to the whole scan: if
every chunk before `c` succeeds and the query for chunk `c` fails, the
scanner returns that error (no partial mapping is produced). -/
theorem scan_chunk_failure_fatal :
    ∀ (ε : Type) (getLogs : Int → Int → Except ε (List ApprovalLog)) (bn : Int)
      (fb tb : Option Int) (step : Int) (err : ε) (pre : List (Int × Int)) (c : Int × Int)
      (post : List (Int × Int)),
      chunk_ranges (scan_start (scan_latest bn tb) fb) (scan_latest bn tb) step =
        pre ++ c :: post →
      (∀ p ∈ pre, ∃ logs, getLogs p.1 p.2 = .ok logs) →
      getLogs c.1 c.2 = .error err →
      scan_approvals getLogs bn fb tb step = .error err := by
  intro ε getLogs bn fb tb step err pre c post hsplit hok hc
  unfold scan_approvals
  rw [hsplit]
  exact scan_foldlM_error getLogs c post err hc pre [] hok

/-- Witness for C6: with two chunks where the second one fails, the scan
returns exactly that error. -/
theorem scan_chunk_failure_fatal_witness :
    scan_approvals
        (fun a _ => if a = 0 then Except.ok ([] : List ApprovalLog) else Except.error 7)
        5 (some 0) (some 5) 3 = Except.error 7 := by
  apply scan_chunk_failure_fatal Nat
    (fun a _ => if a = 0 then Except.ok ([] : List ApprovalLog) else Except.error 7)
    5 (some 0) (some 5) 3 7 [(0, 2)] (3, 5) []
  · decide
  · intro p hp
    simp at hp
    subst hp
    exact ⟨[], rfl⟩
  · rfl


lemma dictLookup_map_update_ne (m : List ((String × String) × Nat)) (k kk : String × String)
    (v : Nat) (hne : k ≠ kk) :
    dictLookup k (m.map (fun p => if p.1 = kk then (kk, v) else p)) = dictLookup k m := by
  induction m with
  | nil => rfl
  | cons p rest ih =>
    simp only [List.map_cons]
    by_cases hp : p.1 = kk
    · have h1 : ¬(kk = k) := fun h => hne h.symm
      have h2 : ¬(p.1 = k) := by rw [hp]; exact h1
      simp [dictLookup, hp, h1, h2, ih]
    · rw [if_neg hp]
      simp [dictLookup, ih]

lemma dictLookup_map_update_found (m : List ((String × String) × Nat)) (kk : String × String)
    (v : Nat) (hmem : m.any (fun p => decide (p.1 = kk)) = true) :
    dictLookup kk (m.map (fun p => if p.1 = kk then (kk, v) else p)) = some v := by
  induction m with
  | nil => simp at hmem
  | cons p rest ih =>
    simp only [List.any_cons, Bool.or_eq_true, decide_eq_true_eq] at hmem
    simp only [List.map_cons]
    by_cases hp : p.1 = kk
    · simp [dictLookup, hp]
    · have hrest : rest.any (fun p => decide (p.1 = kk)) = true := by
        rcases hmem with h | h
        · exact absurd h hp
        · exact h
      simp [dictLookup, hp, ih hrest]

lemma dictLookup_eq_none (m : List ((String × String) × Nat)) (k : String × String)
    (h : m.any (fun p => decide (p.1 = k)) = false) : dictLookup k m = none := by
  induction m with
  | nil => rfl
  | cons p rest ih =>
    simp only [List.any_cons, Bool.or_eq_false_iff, decide_eq_false_iff_not] at h
    simp [dictLookup, h.1, ih h.2]

lemma dictLookup_append_single (m : List ((String × String) × Nat)) (k kk : String × String)
    (v : Nat) :
    dictLookup k (m ++ [(kk, v)]) =
      match dictLookup k m with
      | some w => some w
      | none => if kk = k then some v else none := by
  induction m with
  | nil => rfl
  | cons p rest ih =>
    by_cases hp : p.1 = k
    · simp [dictLookup, hp]
    · simp [dictLookup, hp, ih]

lemma dictLookup_insert (m : List ((String × String) × Nat)) (k kk : String × String) (v : Nat) :
    dictLookup k (dictInsert m kk v) = if k = kk then some v else dictLookup k m := by
  unfold dictInsert
  by_cases hmem : m.any (fun p => decide (p.1 = kk)) = true
  · rw [if_pos hmem]
    by_cases hk : k = kk
    · subst hk
      rw [if_pos rfl]
      exact dictLookup_map_update_found m k v hmem
    · rw [if_neg hk]
      exact dictLookup_map_update_ne m k kk v hk
  · rw [if_neg hmem]
    rw [dictLookup_append_single]
    by_cases hk : k = kk
    · subst hk
      have hnone : dictLookup k m = none :=
        dictLookup_eq_none m k (Bool.eq_false_iff.mpr hmem)
      simp [hnone]
    · have hk2 : ¬(kk = k) := fun h => hk h.symm
      cases hl : dictLookup k m <;> simp [hl, hk, hk2]

lemma dictKeys_insert (m : List ((String × String) × Nat)) (kk : String × String) (v : Nat) :
    dictKeys (dictInsert m kk v) =
      if m.any (fun p => decide (p.1 = kk)) = true then dictKeys m else dictKeys m ++ [kk] := by
  unfold dictInsert
  by_cases hmem : m.any (fun p => decide (p.1 = kk)) = true
  · rw [if_pos hmem, if_pos hmem]
    unfold dictKeys
    rw [List.map_map]
    apply List.map_congr_left
    intro p _
    by_cases hp : p.1 = kk
    · simp [hp]
    · simp [hp]
  · rw [if_neg hmem, if_neg hmem]
    unfold dictKeys
    simp

lemma any_key_iff (m : List ((String × String) × Nat)) (kk : String × String) :
    m.any (fun p => decide (p.1 = kk)) = true ↔ kk ∈ dictKeys m := by
  simp [dictKeys, List.any_eq_true, List.mem_map]

lemma dictKeys_nodup_insert (m : List ((String × String) × Nat)) (kk : String × String) (v : Nat)
    (h : (dictKeys m).Nodup) : (dictKeys (dictInsert m kk v)).Nodup := by
  rw [dictKeys_insert]
  by_cases hmem : m.any (fun p => decide (p.1 = kk)) = true
  · rw [if_pos hmem]
    exact h
  · rw [if_neg hmem]
    have hout : kk ∉ dictKeys m := fun hin => hmem ((any_key_iff m kk).mpr hin)
    simp [List.nodup_append, h, hout]

lemma scanFold_keys_nodup_from :
    ∀ (logs : List ApprovalLog) (m : List ((String × String) × Nat)),
      (dictKeys m).Nodup → (dictKeys (logs.foldl scan_step m)).Nodup := by
  intro logs
  induction logs with
  | nil => exact fun m h => h
  | cons lg rest ih =>
    intro m h
    exact ih _ (dictKeys_nodup_insert m (approval_key lg) lg.rawValue h)

lemma scanFold_lookup_from :
    ∀ (logs : List ApprovalLog) (m : List ((String × String) × Nat)) (k : String × String),
      dictLookup k (logs.foldl scan_step m) =
        match (logs.filter (fun l => decide (approval_key l = k))).getLast? with
        | some l => some l.rawValue
        | none => dictLookup k m := by
  intro logs
  induction logs with
  | nil => intro m k; rfl
  | cons lg rest ih =>
    intro m k
    simp only [List.foldl_cons, List.filter_cons]
    rw [ih]
    by_cases hk : approval_key lg = k
    · rw [if_pos (show decide (approval_key lg = k) = true by simp [hk])]
      cases hl : (rest.filter (fun l => decide (approval_key l = k))).getLast? with
      | some l' => simp [List.getLast?_cons, hl]
      | none =>
        simp [List.getLast?_cons, hl, scan_step, dictLookup_insert, hk]
    · have hk2 : ¬(k = approval_key lg) := fun h => hk h.symm
      rw [if_neg (show ¬decide (approval_key lg = k) = true by simp [hk])]
      cases hl : (rest.filter (fun l => decide (approval_key l = k))).getLast? with
      | some l' => simp [hl]
      | none => simp [hl, scan_step, dictLookup_insert, hk2]

lemma scan_foldlM_ok (f : Int → Int → List ApprovalLog) :
    ∀ (chunks : List (Int × Int)) (acc : List ((String × String) × Nat)),
      List.foldlM
        (fun pairs q => do
          let logs ← (Except.ok (f q.1 q.2) : Except Unit (List ApprovalLog))
          pure (logs.foldl scan_step pairs))
        acc chunks =
        Except.ok (chunks.foldl (fun m q => (f q.1 q.2).foldl scan_step m) acc) := by
  intro chunks
  induction chunks with
  | nil => intro acc; rfl
  | cons c rest ih =>
    intro acc
    simp only [List.foldlM_cons, List.foldl_cons]
    exact ih _

lemma scanFold_chunks (f : Int → Int → List ApprovalLog) :
    ∀ (chunks : List (Int × Int)) (logsAcc : List ApprovalLog),
      chunks.foldl (fun m q => (f q.1 q.2).foldl scan_step m) (logsAcc.foldl scan_step []) =
        (chunks.foldl (fun acc q => acc ++ f q.1 q.2) logsAcc).foldl scan_step [] := by
  intro chunks
  induction chunks with
  | nil => intro logsAcc; rfl
  | cons c rest ih =>
    intro logsAcc
    simp only [List.foldl_cons]
    rw [← List.foldl_append]
    exact ih (logsAcc ++ f c.1 c.2)

/-- C3: the scan collapses repeated `(token, spender)` keys: the keys of the
returned mapping are unique, the value stored at a key is the raw value of
the last-processed log with that key, two same-key logs at different block
heights collapse to the single entry of the later one, and an error-free
scan returns exactly this aggregation of all chunk logs in order. -/
theorem scan_dedupe_spec :
    (∀ logs : List ApprovalLog, (dictKeys (scanFold logs)).Nodup) ∧
    (∀ (logs : List ApprovalLog) (k : String × String),
      dictLookup k (scanFold logs) =
        ((logs.filter (fun l => decide (approval_key l = k))).getLast?).map
          ApprovalLog.rawValue) ∧
    (∀ l1 l2 : ApprovalLog, approval_key l1 = approval_key l2 →
      l1.blockNumber ≠ l2.blockNumber →
      scanFold [l1, l2] = [(approval_key l2, l2.rawValue)]) ∧
    (∀ (f : Int → Int → List ApprovalLog) (bn : Int) (fb tb : Option Int) (step : Int),
      scan_approvals (fun a b => (Except.ok (f a b) : Except Unit (List ApprovalLog)))
          bn fb tb step =
        Except.ok (scanFold
          ((chunk_ranges (scan_start (scan_latest bn tb) fb) (scan_latest bn tb) step).foldl
            (fun acc c => acc ++ f c.1 c.2) []))) := by
  refine ⟨?_, ?_, ?_, ?_⟩
  · intro logs
    exact scanFold_keys_nodup_from logs [] List.nodup_nil
  · intro logs k
    rw [scanFold, scanFold_lookup_from]
    cases hl : (logs.filter (fun l => decide (approval_key l = k))).getLast? with
    | some l' => simp [hl]
    | none => simp [hl, dictLookup]
  · intro l1 l2 hkey _
    simp only [scanFold, List.foldl_cons, List.foldl_nil, scan_step]
    have h1 : dictInsert [] (approval_key l1) l1.rawValue = [(approval_key l1, l1.rawValue)] := rfl
    rw [h1, hkey]
    unfold dictInsert
    simp
  · intro f bn fb tb step
    unfold scan_approvals scanFold
    rw [scan_foldlM_ok]
    congr 1
    exact scanFold_chunks f _ []

/-- Witness for C3 at two concrete same-key logs of different heights. -/
theorem scan_dedupe_spec_witness :
    scanFold [ApprovalLog.mk "0xT" "0xS" 5 1, ApprovalLog.mk "0xT" "0xS" 9 2] =
      [(approval_key (ApprovalLog.mk "0xT" "0xS" 9 2), 9)] :=
  scan_dedupe_spec.2.2.1 (ApprovalLog.mk "0xT" "0xS" 5 1) (ApprovalLog.mk "0xT" "0xS" 9 2)
    rfl (by decide)


lemma filter_orderedInsert (p : AllowanceRow → Bool)
    (hp : ∀ x y, p x = true → p y = true → rowLe x y) (a : AllowanceRow) :
    ∀ l : List AllowanceRow,
      (List.orderedInsert rowLe a l).filter p = List.filter p (a :: l) := by
  intro l
  induction l with
  | nil => rfl
  | cons b t ih =>
    simp only [List.orderedInsert]
    by_cases hr : rowLe a b
    · rw [if_pos hr]
    · rw [if_neg hr]
      by_cases hb : p b = true
      · by_cases ha : p a = true
        · exact absurd (hp a b ha hb) hr
        · simp only [List.filter_cons, hb, if_true, ha]
          simp only [Bool.not_eq_true] at ha
          simp [ha] at ih ⊢
          rw [ih]
      · simp only [List.filter_cons, hb]
        simp only [Bool.not_eq_true] at hb
        simp [hb]
        rw [ih]
        simp [List.filter_cons, hb]

lemma filter_sortRows (p : AllowanceRow → Bool)
    (hp : ∀ x y, p x = true → p y = true → rowLe x y) :
    ∀ l : List AllowanceRow, (sortRows l).filter p = l.filter p := by
  intro l
  induction l with
  | nil => rfl
  | cons a t ih =>
    show (List.orderedInsert rowLe a (List.insertionSort rowLe t)).filter p = _
    rw [filter_orderedInsert p hp a (List.insertionSort rowLe t)]
    simp only [List.filter_cons]
    simp only [sortRows] at ih
    rw [ih]

/-- C7: the report builder returns the rows sorted by risk descending then
raw allowance descending (`rowLe`), as a permutation of the built row list,
and the sort is stable: rows sharing both sort keys keep their original
relative order (their filtered subsequences agree). -/
theorem build_report_sorted :
    ∀ (tokenMeta : String → String × Int) (liveValues : String × String → Nat × Nat)
      (pairs : List ((String × String) × Nat)) (rows : List AllowanceRow),
      build_report tokenMeta liveValues pairs = some rows →
      ∃ raw, mkRows tokenMeta liveValues pairs = some raw ∧
        rows = sortRows raw ∧
        rows.Perm raw ∧
        List.Sorted rowLe rows ∧
        (∀ key : Nat × Nat,
          rows.filter (fun r => decide (row_key r = key)) =
            raw.filter (fun r => decide (row_key r = key))) := by
  intro tokenMeta liveValues pairs rows h
  unfold build_report at h
  rcases Option.map_eq_some'.mp h with ⟨raw, hraw, hsort⟩
  subst hsort
  refine ⟨raw, hraw, rfl, List.perm_insertionSort rowLe raw, ?_, ?_⟩
  · exact List.sorted_insertionSort rowLe raw
  · intro key
    apply filter_sortRows
    intro x y hx hy
    simp only [decide_eq_true_eq, row_key] at hx hy
    have hxy : (x.risk, x.allowance_raw) = (y.risk, y.allowance_raw) := hx.trans hy.symm
    have h1 : x.risk = y.risk := congrArg Prod.fst hxy
    have h2 : x.allowance_raw = y.allowance_raw := congrArg Prod.snd hxy
    unfold rowLe
    omega


/-- Witness for C7 at a concrete two-pair report whose sort swaps the rows. -/
theorem build_report_sorted_witness :
    ∃ raw,
      mkRows (fun _ => ("TK", 0)) (fun pr => if pr.2 = "A" then (100, 10) else (500, 10))
          [(("T", "A"), 0), (("T", "B"), 0)] = some raw ∧
      [AllowanceRow.mk "T" "TK" 0 "B" "" "500" 500 "10" 10 3,
       AllowanceRow.mk "T" "TK" 0 "A" "" "100" 100 "10" 10 2] = sortRows raw ∧
      List.Perm
        [AllowanceRow.mk "T" "TK" 0 "B" "" "500" 500 "10" 10 3,
         AllowanceRow.mk "T" "TK" 0 "A" "" "100" 100 "10" 10 2] raw ∧
      List.Sorted rowLe
        [AllowanceRow.mk "T" "TK" 0 "B" "" "500" 500 "10" 10 3,
         AllowanceRow.mk "T" "TK" 0 "A" "" "100" 100 "10" 10 2] ∧
      (∀ key : Nat × Nat,
        List.filter (fun r => decide (row_key r = key))
            [AllowanceRow.mk "T" "TK" 0 "B" "" "500" 500 "10" 10 3,
             AllowanceRow.mk "T" "TK" 0 "A" "" "100" 100 "10" 10 2] =
          raw.filter (fun r => decide (row_key r = key))) :=
  build_report_sorted (fun _ => ("TK", 0))
    (fun pr => if pr.2 = "A" then (100, 10) else (500, 10))
    [(("T", "A"), 0), (("T", "B"), 0)]
    [AllowanceRow.mk "T" "TK" 0 "B" "" "500" 500 "10" 10 3,
     AllowanceRow.mk "T" "TK" 0 "A" "" "100" 100 "10" 10 2]
    (by decide)


lemma toDigitsRev_lt_ten : ∀ (fuel n : Nat), ∀ d ∈ toDigitsRev fuel n, d < 10 := by
  intro fuel
  induction fuel with
  | zero => intro n d hd; simp [toDigitsRev] at hd
  | succ f ih =>
    intro n d hd
    by_cases hn : n = 0
    · simp [toDigitsRev, hn] at hd
    · simp only [toDigitsRev, if_neg hn, List.mem_cons] at hd
      rcases hd with rfl | hd
      · exact Nat.mod_lt n (by omega)
      · exact ih (n / 10) d hd

lemma fromDigits_toDigits : ∀ (fuel n : Nat), n ≤ fuel →
    fromDigitsRev (toDigitsRev fuel n) = n := by
  intro fuel
  induction fuel with
  | zero => intro n h; interval_cases n; rfl
  | succ f ih =>
    intro n h
    by_cases hn : n = 0
    · simp [toDigitsRev, hn, fromDigitsRev]
    · simp only [toDigitsRev, if_neg hn, fromDigitsRev]
      rw [ih (n / 10) (by omega)]
      omega

lemma digitChar_mem_digitChars : ∀ k < 10, Nat.digitChar k ∈ digitChars := by decide

lemma digitChar_inj_lt : ∀ a < 10, ∀ b < 10, Nat.digitChar a = Nat.digitChar b → a = b := by
  decide

lemma natRepr_chars (n : Nat) : ∀ c ∈ (natRepr n).data, c ∈ digitChars := by
  intro c hc
  unfold natRepr at hc
  by_cases hn : n = 0
  · simp [hn] at hc
    simp [hc, digitChars]
  · rw [if_neg hn] at hc
    simp only [List.mem_map, List.mem_reverse] at hc
    obtain ⟨d, hd, rfl⟩ := hc
    exact digitChar_mem_digitChars d (toDigitsRev_lt_ten n n d hd)

lemma natRepr_data_ne_nil (n : Nat) : (natRepr n).data ≠ [] := by
  unfold natRepr
  by_cases hn : n = 0
  · simp [hn]
  · rw [if_neg hn]
    rcases n with _ | m
    · exact absurd rfl hn
    · simp only [toDigitsRev, if_neg hn]
      simp

lemma map_digitChar_inj : ∀ l1 l2 : List Nat, (∀ d ∈ l1, d < 10) → (∀ d ∈ l2, d < 10) →
    l1.map Nat.digitChar = l2.map Nat.digitChar → l1 = l2 := by
  intro l1
  induction l1 with
  | nil => intro l2 _ _ h; cases l2 <;> simp_all
  | cons a t ih =>
    intro l2 h1 h2 h
    cases l2 with
    | nil => simp at h
    | cons b t2 =>
      simp only [List.map_cons, List.cons.injEq] at h
      have ha : a = b := digitChar_inj_lt a (h1 a (by simp)) b (h2 b (by simp)) h.1
      have ht : t = t2 := ih t2 (fun d hd => h1 d (by simp [hd])) (fun d hd => h2 d (by simp [hd])) h.2
      rw [ha, ht]

lemma natRepr_inj : ∀ m n : Nat, natRepr m = natRepr n → m = n := by
  intro m n h
  have hdata : (natRepr m).data = (natRepr n).data := by rw [h]
  unfold natRepr at hdata
  by_cases hm : m = 0 <;> by_cases hn : n = 0
  · omega
  · rw [if_pos hm, if_neg hn] at hdata
    have : (toDigitsRev n n).reverse.map Nat.digitChar = ['0'] := by
      simpa using hdata.symm
    have hdig : (toDigitsRev n n).reverse = [0] := by
      have := map_digitChar_inj (toDigitsRev n n).reverse [0]
        (fun d hd => toDigitsRev_lt_ten n n d (List.mem_reverse.mp hd)) (by simp)
      apply this
      simpa using hdata.symm
    have hrev : toDigitsRev n n = [0] := by
      have := congrArg List.reverse hdig
      simpa using this
    have := fromDigits_toDigits n n le_rfl
    rw [hrev] at this
    simp [fromDigitsRev] at this
    omega
  · rw [if_neg hm, if_pos hn] at hdata
    have hdig : (toDigitsRev m m).reverse = [0] := by
      have := map_digitChar_inj (toDigitsRev m m).reverse [0]
        (fun d hd => toDigitsRev_lt_ten m m d (List.mem_reverse.mp hd)) (by simp)
      apply this
      simpa using hdata
    have hrev : toDigitsRev m m = [0] := by
      have := congrArg List.reverse hdig
      simpa using this
    have := fromDigits_toDigits m m le_rfl
    rw [hrev] at this
    simp [fromDigitsRev] at this
    omega
  · rw [if_neg hm, if_neg hn] at hdata
    have hdig := map_digitChar_inj (toDigitsRev m m).reverse (toDigitsRev n n).reverse
      (fun d hd => toDigitsRev_lt_ten m m d (List.mem_reverse.mp hd))
      (fun d hd => toDigitsRev_lt_ten n n d (List.mem_reverse.mp hd)) hdata
    have hds : toDigitsRev m m = toDigitsRev n n := by
      have := congrArg List.reverse hdig
      simpa using this
    have h1 := fromDigits_toDigits m m le_rfl
    have h2 := fromDigits_toDigits n n le_rfl
    rw [hds] at h1
    omega

lemma pad8_chars (m : Nat) : ∀ c ∈ pad8 m, c ∈ digitChars := by
  intro c hc
  unfold pad8 at hc
  simp only [List.mem_map, List.mem_range] at hc
  obtain ⟨i, _, rfl⟩ := hc
  exact digitChar_mem_digitChars _ (Nat.mod_lt _ (by omega))

lemma pad8_length (m : Nat) : (pad8 m).length = 8 := by
  simp [pad8]


lemma digit_beq_dot_false : ∀ c ∈ digitChars, (c == '.') = false := by decide

lemma digit_ne_dot : ∀ c ∈ digitChars, c ≠ '.' := by decide

lemma dot_not_digit : '.' ∉ digitChars := by decide

lemma dropWhile_head_false {p : Char → Bool} :
    ∀ (l : List Char) (h : Char) (t : List Char), l.dropWhile p = h :: t → p h = false := by
  intro l
  induction l with
  | nil => intro h t hd; simp at hd
  | cons a rest ih =>
    intro h t hd
    by_cases hp : p a = true
    · rw [List.dropWhile_cons_of_pos hp] at hd
      exact ih h t hd
    · rw [List.dropWhile_cons_of_neg (by simpa using hp)] at hd
      cases hd
      simpa using hp

lemma rstrip_data (s : String) (c : Char) :
    (rstrip s c).data = (s.data.reverse.dropWhile (· == c)).reverse := rfl

lemma strip_format_all_zeros (A F : List Char) (hA : A ≠ []) (hAd : ∀ c ∈ A, c ∈ digitChars)
    (hz : F.reverse.dropWhile (· == '0') = []) :
    (rstrip (rstrip (String.mk (A ++ '.' :: F)) '0') '.').data = A := by
  have hrev : (A ++ '.' :: F).reverse = F.reverse ++ '.' :: A.reverse := by
    simp
  have h1 : (rstrip (String.mk (A ++ '.' :: F)) '0').data = A ++ ['.'] := by
    rw [rstrip_data]
    show ((A ++ '.' :: F).reverse.dropWhile (· == '0')).reverse = _
    rw [hrev, List.dropWhile_append, hz]
    simp
  rw [rstrip_data, h1]
  have hrev2 : (A ++ ['.']).reverse = '.' :: A.reverse := by simp
  rw [hrev2]
  rw [List.dropWhile_cons_of_pos (by decide)]
  cases hAr : A.reverse with
  | nil => simp at hAr; exact absurd hAr hA
  | cons a t =>
    have ha : a ∈ digitChars := by
      apply hAd
      have : a ∈ A.reverse := by rw [hAr]; simp
      simpa using this
    rw [List.dropWhile_cons_of_neg (by simp [digit_ne_dot a ha])]
    rw [← hAr]
    simp

lemma strip_format_some (A F : List Char) (hAd : ∀ c ∈ A, c ∈ digitChars)
    (hFd : ∀ c ∈ F, c ∈ digitChars) (h : Char) (t : List Char)
    (hz : F.reverse.dropWhile (· == '0') = h :: t) :
    (rstrip (rstrip (String.mk (A ++ '.' :: F)) '0') '.').data =
      A ++ '.' :: (h :: t).reverse := by
  have hhF : h ∈ F := by
    have : h ∈ F.reverse.dropWhile (· == '0') := by rw [hz]; simp
    have := (List.dropWhile_sublist (· == '0')).mem this
    simpa using this
  have hrev : (A ++ '.' :: F).reverse = F.reverse ++ '.' :: A.reverse := by
    simp
  have h1 : (rstrip (String.mk (A ++ '.' :: F)) '0').data = A ++ '.' :: (h :: t).reverse := by
    rw [rstrip_data]
    show ((A ++ '.' :: F).reverse.dropWhile (· == '0')).reverse = _
    rw [hrev, List.dropWhile_append, hz]
    simp
  rw [rstrip_data, h1]
  have hrev2 : (A ++ '.' :: (h :: t).reverse).reverse = (h :: t) ++ '.' :: A.reverse := by
    simp
  rw [hrev2]
  rw [List.cons_append]
  rw [List.dropWhile_cons_of_neg (by simp [digit_ne_dot h (hFd h hhF)])]
  rw [← List.cons_append]
  simp


lemma roundHEND_le (N D : Nat) (hD : 0 < D) :
    (roundHEND N D : ℚ) ≤ (N : ℚ) / D + 1 / 2 := by
  have hDQ : (0:ℚ) < (D:ℚ) := by exact_mod_cast hD
  have hdm : D * (N / D) + N % D = N := Nat.div_add_mod N D
  have hc : (D:ℚ) * ((N / D : ℕ) : ℚ) + ((N % D : ℕ) : ℚ) = (N:ℚ) := by exact_mod_cast hdm
  have hxq : (N:ℚ) / D = ((N / D : ℕ) : ℚ) + ((N % D : ℕ) : ℚ) / D := by
    rw [← hc]
    field_simp
    ring
  have hrd : (0:ℚ) ≤ ((N % D : ℕ) : ℚ) / D := by positivity
  simp only [roundHEND]
  split_ifs with h1 h2 h3
  · rw [hxq]
    linarith
  · have hr : (D:ℚ) < 2 * ((N % D : ℕ) : ℚ) := by exact_mod_cast h2
    have h12 : (1:ℚ)/2 ≤ ((N % D : ℕ) : ℚ) / D := by
      rw [le_div_iff₀ hDQ]
      linarith
    rw [hxq]
    push_cast
    linarith
  · rw [hxq]
    linarith
  · have hr : (D:ℚ) ≤ 2 * ((N % D : ℕ) : ℚ) := by
      exact_mod_cast (by omega : D ≤ 2 * (N % D))
    have h12 : (1:ℚ)/2 ≤ ((N % D : ℕ) : ℚ) / D := by
      rw [le_div_iff₀ hDQ]
      linarith
    rw [hxq]
    push_cast
    linarith

lemma log2fuel_bounds : ∀ (fuel n : Nat), 1 ≤ n → n ≤ fuel →
    2 ^ log2fuel fuel n ≤ n ∧ n < 2 ^ (log2fuel fuel n + 1) := by
  intro fuel
  induction fuel with
  | zero => intro n h1 h2; exfalso; omega
  | succ f ih =>
    intro n h1 h2
    by_cases hn : 2 ≤ n
    · simp only [log2fuel, if_pos hn]
      have hrec := ih (n / 2) (by omega) (by omega)
      constructor
      · rw [pow_succ]
        have := hrec.1
        omega
      · rw [pow_succ]
        have := hrec.2
        omega
    · simp only [log2fuel, if_neg hn]
      constructor
      · simpa using h1
      · have hlt : n < 2 := by omega
        simpa using hlt

lemma nlog2_bounds (n : Nat) (h : 1 ≤ n) :
    2 ^ nlog2 n ≤ n ∧ n < 2 ^ (nlog2 n + 1) :=
  log2fuel_bounds n n h le_rfl

lemma pow2le_iff (g : Int) (n d : Nat) (hd : 0 < d) :
    pow2le g n d = true ↔ (2:ℚ) ^ g ≤ (n:ℚ) / d := by
  have hdQ : (0:ℚ) < (d:ℚ) := by exact_mod_cast hd
  unfold pow2le
  by_cases hg : 0 ≤ g
  · rw [if_pos hg, decide_eq_true_eq]
    have hgt : (2:ℚ) ^ g = ((2 ^ g.toNat : ℕ) : ℚ) := by
      conv_lhs => rw [← Int.toNat_of_nonneg hg]
      rw [zpow_natCast]
      push_cast
      ring
    rw [hgt, le_div_iff₀ hdQ, ← Nat.cast_mul, Nat.cast_le, Nat.mul_comm]
  · rw [if_neg hg, decide_eq_true_eq]
    have hXpos : (0:ℚ) < ((2 ^ (-g).toNat : ℕ) : ℚ) := by positivity
    have hgt : (2:ℚ) ^ g = (((2 ^ (-g).toNat : ℕ) : ℚ))⁻¹ := by
      conv_lhs => rw [show g = -(-g) from (neg_neg g).symm]
      rw [zpow_neg]
      congr 1
      conv_lhs => rw [← Int.toNat_of_nonneg (by omega : (0:Int) ≤ -g)]
      rw [zpow_natCast]
      push_cast
      ring
    rw [hgt, le_div_iff₀ hdQ, inv_mul_le_iff₀ hXpos, ← Nat.cast_mul, Nat.cast_le, Nat.mul_comm]

lemma qlog2floor_le (n d : Nat) (hn : 1 ≤ n) (hd : 1 ≤ d) :
    (2:ℚ) ^ qlog2floor n d ≤ (n:ℚ) / d := by
  unfold qlog2floor
  by_cases h1 : pow2le ((nlog2 n : Int) - (nlog2 d : Int) + 1) n d = true
  · rw [if_pos h1]
    exact (pow2le_iff _ n d (by omega)).mp h1
  · rw [if_neg h1]
    by_cases h2 : pow2le ((nlog2 n : Int) - (nlog2 d : Int)) n d = true
    · rw [if_pos h2]
      exact (pow2le_iff _ n d (by omega)).mp h2
    · rw [if_neg h2]
      have hb1 := (nlog2_bounds n hn).1
      have hb2 := (nlog2_bounds d hd).2
      have hA : ((2 ^ nlog2 n : ℕ) : ℚ) ≤ (n:ℚ) := by exact_mod_cast hb1
      have hB : (d:ℚ) ≤ ((2 ^ (nlog2 d + 1) : ℕ) : ℚ) := by exact_mod_cast (le_of_lt hb2)
      have hApos : (0:ℚ) ≤ ((2 ^ nlog2 n : ℕ) : ℚ) := by positivity
      have hg1 : (2:ℚ) ^ ((nlog2 n : Int) - (nlog2 d : Int) - 1) =
          ((2 ^ nlog2 n : ℕ) : ℚ) / ((2 ^ (nlog2 d + 1) : ℕ) : ℚ) := by
        push_cast
        rw [← zpow_natCast (2:ℚ) (nlog2 n), ← zpow_natCast (2:ℚ) (nlog2 d + 1),
          ← zpow_sub₀ (by norm_num : (2:ℚ) ≠ 0)]
        congr 1
        push_cast
        ring
      rw [hg1]
      exact div_le_div₀ (by exact_mod_cast Nat.zero_le n) hA (by exact_mod_cast hd) hB


lemma roundB64_val_le (n d : Nat) (hd : 0 < d) (u : Nat) (e : Int)
    (h : roundB64 n d = some (u, e)) :
    (u:ℚ) * (2:ℚ) ^ e ≤ 2 * ((n:ℚ) / d) + 1 / 4 := by
  have hdQ : (0:ℚ) < (d:ℚ) := by exact_mod_cast hd
  unfold roundB64 at h
  by_cases hn : n = 0
  · rw [if_pos hn] at h
    simp only [Option.some.injEq, Prod.mk.injEq] at h
    obtain ⟨h1, h2⟩ := h
    subst h1
    subst h2
    simp [hn]
  · rw [if_neg hn] at h
    simp only at h
    set E := qlog2floor n d with hE
    set e' := max (E - 52) (-1074) with he'
    set u' := if 0 ≤ e' then roundHEND n (d * 2 ^ e'.toNat)
      else roundHEND (n * 2 ^ (-e').toNat) d with hu'
    by_cases hov : 2 ^ 2098 ≤ u' * 2 ^ (e' + 1074).toNat
    · rw [if_pos hov] at h
      simp at h
    · rw [if_neg hov] at h
      simp only [Option.some.injEq, Prod.mk.injEq] at h
      obtain ⟨hu, he⟩ := h
      subst hu
      subst he
      have hnQ : (0:ℚ) < (n:ℚ) := by
        exact_mod_cast Nat.pos_of_ne_zero hn
      have hx : (0:ℚ) < (n:ℚ) / d := div_pos hnQ hdQ
      have hub : (u':ℚ) ≤ ((n:ℚ) / d) * (2:ℚ) ^ (-e') + 1 / 2 := by
        by_cases hge : 0 ≤ e'
        · rw [hu', if_pos hge]
          have h0 : (0:Nat) < d * 2 ^ e'.toNat := by positivity
          have hle := roundHEND_le n (d * 2 ^ e'.toNat) h0
          have heq : (n:ℚ) / ((d * 2 ^ e'.toNat : ℕ) : ℚ) = ((n:ℚ) / d) * (2:ℚ) ^ (-e') := by
            have h2e : (2:ℚ) ^ e' = ((2 ^ e'.toNat : ℕ) : ℚ) := by
              conv_lhs => rw [← Int.toNat_of_nonneg hge]
              rw [zpow_natCast]
              push_cast
              ring
            rw [zpow_neg, h2e]
            push_cast
            have hpow : (0:ℚ) < (2:ℚ) ^ e'.toNat := by positivity
            field_simp
          rw [heq] at hle
          exact hle
        · rw [hu', if_neg hge]
          have hle := roundHEND_le (n * 2 ^ (-e').toNat) d hd
          have heq : ((n * 2 ^ (-e').toNat : ℕ) : ℚ) / d = ((n:ℚ) / d) * (2:ℚ) ^ (-e') := by
            have h2e : (2:ℚ) ^ (-e') = ((2 ^ (-e').toNat : ℕ) : ℚ) := by
              conv_lhs => rw [← Int.toNat_of_nonneg (by omega : (0:Int) ≤ -e')]
              rw [zpow_natCast]
              push_cast
              ring
            rw [h2e]
            push_cast
            ring
          rw [heq] at hle
          exact hle
      have hp : (0:ℚ) < (2:ℚ) ^ e' := by positivity
      have hmain : (u':ℚ) * (2:ℚ) ^ e' ≤ (n:ℚ) / d + (2:ℚ) ^ (e' - 1) := by
        have hmul := mul_le_mul_of_nonneg_right hub (le_of_lt hp)
        have hinv : (2:ℚ) ^ (-e') * (2:ℚ) ^ e' = 1 := by
          rw [← zpow_add₀ (by norm_num : (2:ℚ) ≠ 0)]
          simp
        have hhalf : 1 / 2 * (2:ℚ) ^ e' = (2:ℚ) ^ (e' - 1) := by
          rw [zpow_sub₀ (by norm_num : (2:ℚ) ≠ 0)]
          rw [zpow_one]
          ring
        calc (u':ℚ) * (2:ℚ) ^ e' ≤ ((n:ℚ) / d * (2:ℚ) ^ (-e') + 1 / 2) * (2:ℚ) ^ e' := hmul
          _ = (n:ℚ) / d * ((2:ℚ) ^ (-e') * (2:ℚ) ^ e') + 1 / 2 * (2:ℚ) ^ e' := by ring
          _ = (n:ℚ) / d + (2:ℚ) ^ (e' - 1) := by rw [hinv, hhalf]; ring
      have htail : (2:ℚ) ^ (e' - 1) ≤ (n:ℚ) / d + 1 / 4 := by
        by_cases hcase : -1074 ≤ E - 52
        · have hle1 : (2:ℚ) ^ (e' - 1) ≤ (2:ℚ) ^ E :=
            zpow_le_zpow_right₀ (by norm_num) (by omega)
          have hle2 : (2:ℚ) ^ E ≤ (n:ℚ) / d := by
            rw [hE]
            exact qlog2floor_le n d (Nat.pos_of_ne_zero hn) hd
          linarith
        · have hle1 : (2:ℚ) ^ (e' - 1) ≤ (2:ℚ) ^ (-2 : Int) :=
            zpow_le_zpow_right₀ (by norm_num) (by omega)
          have hle2 : (2:ℚ) ^ (-2 : Int) = 1 / 4 := by norm_num
          rw [hle2] at hle1
          linarith [le_of_lt hx]
      linarith

lemma n8val_le (u : Nat) (e : Int) :
    (n8val u e : ℚ) ≤ (u:ℚ) * (2:ℚ) ^ e * 10 ^ 8 + 1 / 2 := by
  unfold n8val
  by_cases hge : 0 ≤ e
  · rw [if_pos hge]
    have heq : ((u * 2 ^ e.toNat * 10 ^ 8 : ℕ) : ℚ) = (u:ℚ) * (2:ℚ) ^ e * 10 ^ 8 := by
      have h2e : (2:ℚ) ^ e = ((2 ^ e.toNat : ℕ) : ℚ) := by
        conv_lhs => rw [← Int.toNat_of_nonneg hge]
        rw [zpow_natCast]
        push_cast
        ring
      rw [h2e]
      push_cast
      ring
    rw [heq]
    linarith
  · rw [if_neg hge]
    have h0 : (0:Nat) < 2 ^ (-e).toNat := by positivity
    have hle := roundHEND_le (u * 10 ^ 8) (2 ^ (-e).toNat) h0
    have heq : ((u * 10 ^ 8 : ℕ) : ℚ) / ((2 ^ (-e).toNat : ℕ) : ℚ) =
        (u:ℚ) * (2:ℚ) ^ e * 10 ^ 8 := by
      have h2e : (2:ℚ) ^ e = (((2 ^ (-e).toNat : ℕ) : ℚ))⁻¹ := by
        conv_lhs => rw [show e = -(-e) from (neg_neg e).symm]
        rw [zpow_neg]
        congr 1
        conv_lhs => rw [← Int.toNat_of_nonneg (by omega : (0:Int) ≤ -e)]
        rw [zpow_natCast]
        push_cast
        ring
      rw [h2e]
      push_cast
      rw [div_eq_mul_inv]
      ring
    rw [heq] at hle
    exact hle


/-- C9 (amended): for every `value ≥ 1` and `decimals > 0`, whenever the
formatter returns a string (no float overflow) that string differs from the
decimal rendering of the raw integer. -/
theorem human_amount_no_raw :
    ∀ (v : Nat) (d : Int) (s : String), 1 ≤ v → 0 < d → human_amount v d = some s →
      s ≠ natRepr v := by
  intro v d s hv hd h
  unfold human_amount at h
  rw [if_neg (by omega : ¬ d ≤ 0)] at h
  cases hB : roundB64 v (10 ^ d.toNat) with
  | none => rw [hB] at h; simp at h
  | some ue =>
    obtain ⟨u, e⟩ := ue
    rw [hB] at h
    simp only [Option.some.injEq] at h
    subst h
    set n8 := n8val u e with hn8
    set ip := n8 / 10 ^ 8 with hip
    have hipv : ip < v := by
      have hDpos : (0:Nat) < 10 ^ d.toNat := by positivity
      have hq := roundB64_val_le v (10 ^ d.toNat) hDpos u e hB
      have hn8le := n8val_le u e
      have hipQ : (ip:ℚ) ≤ (n8:ℚ) / 10 ^ 8 := by
        calc (ip:ℚ) ≤ (n8:ℚ) / ((10 ^ 8 : ℕ) : ℚ) := Nat.cast_div_le
          _ = (n8:ℚ) / 10 ^ 8 := by norm_num
      have hxle : (v:ℚ) / ((10 ^ d.toNat : ℕ) : ℚ) ≤ (v:ℚ) / 10 := by
        apply div_le_div_of_nonneg_left (by positivity) (by norm_num)
        have h10 : (10:ℕ) ^ 1 ≤ 10 ^ d.toNat := Nat.pow_le_pow_right (by norm_num) (by omega)
        exact_mod_cast (by simpa using h10 : (10:ℕ) ≤ 10 ^ d.toNat)
      have hvQ : (1:ℚ) ≤ (v:ℚ) := by exact_mod_cast hv
      have hfin : (ip:ℚ) < (v:ℚ) := by
        calc (ip:ℚ) ≤ (n8:ℚ) / 10 ^ 8 := hipQ
          _ ≤ ((u:ℚ) * (2:ℚ) ^ e * 10 ^ 8 + 1 / 2) / 10 ^ 8 := by gcongr
          _ = (u:ℚ) * (2:ℚ) ^ e + 1 / (2 * 10 ^ 8) := by ring
          _ ≤ 2 * ((v:ℚ) / ((10 ^ d.toNat : ℕ) : ℚ)) + 1 / 4 + 1 / (2 * 10 ^ 8) := by
              linarith [hq]
          _ ≤ 2 * ((v:ℚ) / 10) + 1 / 4 + 1 / (2 * 10 ^ 8) := by linarith [hxle]
          _ < (v:ℚ) := by linarith [hvQ]
      exact_mod_cast hfin
    have hAd := natRepr_chars ip
    have hAne := natRepr_data_ne_nil ip
    have hFd := pad8_chars (n8 % 10 ^ 8)
    have hformat : (format8 u e).data = (natRepr ip).data ++ '.' :: pad8 (n8 % 10 ^ 8) := by
      unfold format8
      rw [← hn8, ← hip]
      simp [String.data_append]
    have hfm : format8 u e = String.mk ((natRepr ip).data ++ '.' :: pad8 (n8 % 10 ^ 8)) :=
      String.ext (by rw [hformat])
    rw [hfm]
    intro hcontra
    cases hz : (pad8 (n8 % 10 ^ 8)).reverse.dropWhile (· == '0') with
    | nil =>
      have hs := strip_format_all_zeros (natRepr ip).data (pad8 (n8 % 10 ^ 8)) hAne hAd hz
      have hdata : (natRepr ip).data = (natRepr v).data := by rw [← hs, hcontra]
      have heq : natRepr ip = natRepr v := String.ext hdata
      have := natRepr_inj ip v heq
      omega
    | cons hh tt =>
      have hs := strip_format_some (natRepr ip).data (pad8 (n8 % 10 ^ 8)) hAd hFd hh tt hz
      have hdot : '.' ∈ (natRepr v).data := by
        rw [← hcontra, hs]
        simp
      exact absurd (natRepr_chars v '.' hdot) dot_not_digit

/-- Witness for the amended C9: `human_amount 5 1 = "0.5"` differs from
`str(5)`. -/
theorem human_amount_no_raw_witness : "0.5" ≠ natRepr 5 :=
  human_amount_no_raw 5 1 "0.5" (by decide) (by decide)
    (by set_option maxRecDepth 10000 in decide)

/-- C9 counterexample: at `value = 0` (with `decimals = 18 > 0`) the
formatter output is exactly the decimal rendering "0" of the raw integer, so
the original claim fails at this input. -/
theorem human_amount_no_raw_cex :
    human_amount 0 18 = some (natRepr 0) ∧ (0:Int) < 18 := by
  constructor
  · set_option maxRecDepth 10000 in decide
  · decide


/-- C4 counterexample: at `value = 2^53 + 1`, `decimals = 1`, the code's
float pipeline prints "900719925474099.25" while exact decimal division of
the value by `10^decimals` (rounded to 8 fractional digits and stripped the
same way) prints "900719925474099.3"; the two disagree, so the claim read
with exact division fails. -/
theorem human_amount_float_cex :
    human_amount 9007199254740993 1 = some "900719925474099.25" ∧
    humanAmountExact 9007199254740993 1 = "900719925474099.3" ∧
    ("900719925474099.25" : String) ≠ "900719925474099.3" := by
  refine ⟨?_, ?_, ?_⟩
  · set_option maxRecDepth 40000 in decide
  · set_option maxRecDepth 40000 in decide
  · decide

/-- C4 (amended): `human_amount` prints the raw integer verbatim for
`decimals ≤ 0`, matches the spec's three concrete vectors, and for
`decimals > 0` the returned string (absent float overflow) is the binary64
quotient formatted with at most 8 fractional digits, trailing zeros and a
trailing decimal point stripped: it is either a bare integer rendering or an
integer rendering followed by `.` and 1 to 8 digits not ending in `0`. -/
theorem human_amount_spec :
    (∀ (v : Nat) (d : Int), d ≤ 0 → human_amount v d = some (natRepr v)) ∧
    human_amount 1234567800000000000 18 = some "1.2345678" ∧
    human_amount 0 18 = some "0" ∧
    human_amount 5 0 = some "5" ∧
    (∀ (v : Nat) (d : Int) (s : String), 0 < d → human_amount v d = some s →
      ∃ ip : Nat, s = natRepr ip ∨
        ∃ fr : List Char, s = String.mk ((natRepr ip).data ++ '.' :: fr) ∧ fr ≠ [] ∧
          fr.length ≤ 8 ∧ (∀ c ∈ fr, c ∈ digitChars) ∧ fr.getLast? ≠ some '0') := by
  refine ⟨?_, ?_, ?_, ?_, ?_⟩
  · intro v d hdle
    unfold human_amount
    rw [if_pos hdle]
  · set_option maxRecDepth 40000 in decide
  · set_option maxRecDepth 40000 in decide
  · decide
  · intro v d s hd h
    unfold human_amount at h
    rw [if_neg (by omega : ¬ d ≤ 0)] at h
    cases hB : roundB64 v (10 ^ d.toNat) with
    | none => rw [hB] at h; simp at h
    | some ue =>
      obtain ⟨u, e⟩ := ue
      rw [hB] at h
      simp only [Option.some.injEq] at h
      subst h
      set n8 := n8val u e with hn8
      set ip := n8 / 10 ^ 8 with hip
      have hAd := natRepr_chars ip
      have hAne := natRepr_data_ne_nil ip
      have hFd := pad8_chars (n8 % 10 ^ 8)
      have hformat : (format8 u e).data = (natRepr ip).data ++ '.' :: pad8 (n8 % 10 ^ 8) := by
        unfold format8
        rw [← hn8, ← hip]
        simp [String.data_append]
      have hfm : format8 u e = String.mk ((natRepr ip).data ++ '.' :: pad8 (n8 % 10 ^ 8)) :=
        String.ext (by rw [hformat])
      rw [hfm]
      refine ⟨ip, ?_⟩
      cases hz : (pad8 (n8 % 10 ^ 8)).reverse.dropWhile (· == '0') with
      | nil =>
        left
        exact String.ext (strip_format_all_zeros (natRepr ip).data (pad8 (n8 % 10 ^ 8)) hAne hAd hz)
      | cons hh tt =>
        right
        refine ⟨(hh :: tt).reverse, ?_, by simp, ?_, ?_, ?_⟩
        · exact String.ext (strip_format_some (natRepr ip).data (pad8 (n8 % 10 ^ 8)) hAd hFd hh tt hz)
        · have h1 : (hh :: tt).length ≤ (pad8 (n8 % 10 ^ 8)).reverse.length := by
            rw [← hz]
            exact (List.dropWhile_sublist (· == '0')).length_le
          rw [List.length_reverse] at h1 ⊢
          rw [pad8_length] at h1
          exact h1
        · intro c hc
          have hc1 : c ∈ hh :: tt := by
            rw [← List.mem_reverse]
            exact hc
          have hc2 : c ∈ (pad8 (n8 % 10 ^ 8)).reverse := by
            rw [← hz] at hc1
            exact (List.dropWhile_sublist (· == '0')).mem hc1
          exact hFd c (by simpa using hc2)
        · rw [List.getLast?_reverse]
          have hfalse : ((hh == '0') : Bool) = false :=
            dropWhile_head_false (pad8 (n8 % 10 ^ 8)).reverse hh tt hz
          simp only [List.head?_cons, ne_eq, Option.some.injEq]
          intro hcon
          rw [hcon] at hfalse
          simp at hfalse

/-- Witness for the amended C4 at concrete inputs exercising both the
`decimals ≤ 0` branch and the fractional-structure conjunct. -/
theorem human_amount_spec_witness :
    human_amount 7 (-2) = some (natRepr 7) ∧
    (∃ ip : Nat, "0.5" = natRepr ip ∨
      ∃ fr : List Char, "0.5" = String.mk ((natRepr ip).data ++ '.' :: fr) ∧ fr ≠ [] ∧
        fr.length ≤ 8 ∧ (∀ c ∈ fr, c ∈ digitChars) ∧ fr.getLast? ≠ some '0') :=
  ⟨human_amount_spec.1 7 (-2) (by decide),
   human_amount_spec.2.2.2.2 5 1 "0.5" (by decide)
     (by set_option maxRecDepth 10000 in decide)⟩

end SpenderSentry
